import Mathlib

/-!
# Verification of the SQLify table-retrieval and SQL-synthesis core

This file gives a shallow embedding, in Lean 4, of the core components of the
SQLify repository (natural-language-to-SQL tool):

* `embedding_manager.py` — semantic column classification, table-description
  synthesis, query preprocessing (variant expansion) and relevance lookup
  (`find_relevant_tables`);
* `query_generator.py` — intent extraction fallback behaviour and SQL
  cleaning/validation (`_clean_sql_query`);
* `database.py` — the persisted schema document shape produced by
  `extract_schema`.

Python strings are modelled as `List Char` (wrapped in `String` at API
boundaries); Python exceptions are modelled with `Except String`; the
floating-point similarity scores returned by the vector index are modelled
as rationals `ℚ` (the ranking/thresholding logic uses only ordering, `max`
and the constants 0, 0.3 and 1, so the field of scores is irrelevant to the
claims); the external sentence-embedding model and FAISS index are modelled
as abstract functions supplied as parameters, since they are external
collaborators of the repository code.
-/

/-! ## Python primitive string operations -/

/-- The six ASCII whitespace characters recognised by Python's `str.split()`,
`str.strip()` and friends. -/
def pyIsSpace (c : Char) : Bool :=
  c = ' ' ∨ c = '\t' ∨ c = '\n' ∨ c = '\r' ∨ c = '\x0b' ∨ c = '\x0c'

/-- ASCII lowercasing of one character, the fragment of Python's `str.lower`
relevant to this code base. -/
def toLowerChar (c : Char) : Char :=
  if 65 ≤ c.toNat ∧ c.toNat ≤ 90 then Char.ofNat (c.toNat + 32) else c

/-- Python `s.lower()` on a character list. -/
def pyLowerL (l : List Char) : List Char := l.map toLowerChar

/-- Python `s.lower()` on a string. -/
def pyLower (s : String) : String := String.mk (pyLowerL s.data)

/-- Split a list at the first occurrence of the pattern `pat`:
`splitOnFirst pat l = some (before, after)` when `l = before ++ pat ++ after`
at the leftmost occurrence, `none` when `pat` does not occur in `l`.
It models Python's `in` test together with the first step of `str.split`. -/
def splitOnFirst (pat : List Char) : List Char → Option (List Char × List Char)
  | [] => if pat = [] then some ([], []) else none
  | c :: rest =>
    if pat.isPrefixOf (c :: rest) then some ([], (c :: rest).drop pat.length)
    else match splitOnFirst pat rest with
      | some (pre, post) => some (c :: pre, post)
      | none => none

/-- Python `pat in s` (substring containment). -/
def containsSub (pat l : List Char) : Bool := (splitOnFirst pat l).isSome

/-- Python `s.strip()` (both-ends whitespace trim). -/
def pyStrip (l : List Char) : List Char :=
  ((l.dropWhile pyIsSpace).reverse.dropWhile pyIsSpace).reverse

/-- One token of Python's `s.split()`: the maximal non-whitespace prefix and
the remainder. -/
def takeToken (l : List Char) : List Char × List Char :=
  (l.takeWhile (fun c => !pyIsSpace c), l.dropWhile (fun c => !pyIsSpace c))

theorem takeToken_snd_length (l : List Char) : (takeToken l).2.length ≤ l.length := by
  simpa [takeToken] using List.Sublist.length_le (List.dropWhile_sublist _)

/-- Python `s.split()`: split on runs of whitespace, discarding empty pieces. -/
def pySplitWs : List Char → List (List Char)
  | [] => []
  | c :: rest =>
    if h : pyIsSpace c then pySplitWs rest
    else (takeToken (c :: rest)).1 :: pySplitWs (takeToken (c :: rest)).2
termination_by l => l.length
decreasing_by
  · simp
  · have h2 : (takeToken (c :: rest)).2 = rest.dropWhile (fun c => !pyIsSpace c) := by
      simp [takeToken, List.dropWhile_cons, h]
    have h3 := List.Sublist.length_le (List.dropWhile_sublist (p := fun c => !pyIsSpace c) (l := rest))
    rw [h2]
    simp
    omega

/-- Python `' '.join(tokens)`. -/
def joinSpace : List (List Char) → List Char
  | [] => []
  | [t] => t
  | t :: rest => t ++ ' ' :: joinSpace rest

/-- Python `' '.join(s.split())`: collapse whitespace runs to single spaces. -/
def collapseWs (l : List Char) : List Char := joinSpace (pySplitWs l)

/-- Python `s.replace(pat, repl)` on lists — replaces every non-overlapping
occurrence, left to right (for a non-empty pattern, the only use here). -/
def replaceAll (pat repl : List Char) : List Char → List Char
  | [] => []
  | c :: rest =>
    if pat ≠ [] ∧ pat.isPrefixOf (c :: rest) then
      repl ++ replaceAll pat repl ((c :: rest).drop pat.length)
    else c :: replaceAll pat repl rest
termination_by l => l.length
decreasing_by
  · rename_i h
    obtain ⟨hne, _⟩ := h
    have : 1 ≤ pat.length := by
      cases pat with
      | nil => simp at hne
      | cons a l => simp
    simp [List.length_drop]; omega
  · simp

/-- Python `s.replace(pat, repl)` on strings. -/
def pyReplace (s pat repl : String) : String :=
  String.mk (replaceAll pat.data repl.data s.data)

/-! ## Query preprocessing (`EmbeddingManager._preprocess_query`)

Implements the two `re.findall` calls of `_preprocess_query`:
* `r'(\d+(?:,\d{3})*(?:\.\d{2})?)'` for numeric literals, and
* the alternation of the eight comparison phrases,
with Python's leftmost, non-overlapping, greedy matching semantics. -/

/-- Greedy `(?:,\d{3})*`: consume as many `,ddd` groups as possible. -/
def matchThousandsGroups : List Char → List Char × List Char
  | ',' :: a :: b :: c :: r =>
    if a.isDigit ∧ b.isDigit ∧ c.isDigit then
      let (g, r') := matchThousandsGroups r
      (',' :: a :: b :: c :: g, r')
    else ([], ',' :: a :: b :: c :: r)
  | r => ([], r)

theorem matchThousandsGroups_snd_length (l : List Char) :
    (matchThousandsGroups l).2.length ≤ l.length := by
  induction l using matchThousandsGroups.induct with
  | case1 a b c r hd g r' heq ih =>
      rw [heq] at ih
      simp only [matchThousandsGroups, if_pos hd, heq]
      simp at ih ⊢
      omega
  | case2 a b c r hd =>
      simp only [matchThousandsGroups, if_neg hd]
      simp
  | case3 r hr =>
      rw [matchThousandsGroups.eq_def]
      split
      · exact absurd rfl (hr _ _ _ _)
      · simp

/-- Optional `(?:\.\d{2})?`: consume `.dd` if present. -/
def matchDecimalPart : List Char → List Char × List Char
  | '.' :: a :: b :: r =>
    if a.isDigit ∧ b.isDigit then (['.', a, b], r) else ([], '.' :: a :: b :: r)
  | r => ([], r)

theorem matchDecimalPart_snd_length (l : List Char) :
    (matchDecimalPart l).2.length ≤ l.length := by
  rw [matchDecimalPart.eq_def]
  split
  · split <;> simp <;> omega
  · simp

/-- The full text matched by `\d+(?:,\d{3})*(?:\.\d{2})?` at a position where a
digit stands (greedy digits, then thousands groups, then the optional decimal
part). -/
def amountToken (l : List Char) : List Char :=
  l.takeWhile Char.isDigit
    ++ (matchThousandsGroups (l.dropWhile Char.isDigit)).1
    ++ (matchDecimalPart (matchThousandsGroups (l.dropWhile Char.isDigit)).2).1

/-- The remainder of the input after `amountToken`. -/
def amountRest (l : List Char) : List Char :=
  (matchDecimalPart (matchThousandsGroups (l.dropWhile Char.isDigit)).2).2

theorem amountRest_length_lt (c : Char) (rest : List Char) (h : c.isDigit = true) :
    (amountRest (c :: rest)).length < (c :: rest).length := by
  have h1 : ((c :: rest).dropWhile Char.isDigit).length ≤ rest.length := by
    rw [List.dropWhile_cons_of_pos (by simpa using h)]
    exact List.Sublist.length_le (List.dropWhile_sublist _)
  have h2 := matchThousandsGroups_snd_length ((c :: rest).dropWhile Char.isDigit)
  have h3 := matchDecimalPart_snd_length
    (matchThousandsGroups ((c :: rest).dropWhile Char.isDigit)).2
  simp only [amountRest, List.length_cons]
  omega

/-- `re.findall(r'(\d+(?:,\d{3})*(?:\.\d{2})?)', l)`: all numeric literals,
leftmost non-overlapping (the regex can only start at a digit). -/
def findAmounts : List Char → List (List Char)
  | [] => []
  | c :: rest =>
    if h : c.isDigit then
      amountToken (c :: rest) :: findAmounts (amountRest (c :: rest))
    else findAmounts rest
termination_by l => l.length
decreasing_by
  · exact amountRest_length_lt c rest h
  · simp

/-- The eight comparison phrases of the alternation
`r'(more than|less than|greater than|higher than|lower than|at least|at most|equal to)'`,
in the order the regex tries them. -/
def comparisonPhrases : List (List Char) :=
  ["more than".data, "less than".data, "greater than".data, "higher than".data,
   "lower than".data, "at least".data, "at most".data, "equal to".data]

/-- `re.findall` of the comparison-phrase alternation: at each position the
alternatives are tried in order; on a match the scan resumes after it. -/
def findComparisons : List Char → List (List Char)
  | [] => []
  | c :: rest =>
    match h : comparisonPhrases.find? (fun p => p.isPrefixOf (c :: rest)) with
    | some p => p :: findComparisons ((c :: rest).drop p.length)
    | none => findComparisons rest
termination_by l => l.length
decreasing_by
  · have hmem := List.mem_of_find?_eq_some h
    have hlen : 1 ≤ p.length := by
      fin_cases hmem <;> simp
    simp [List.length_drop]
    omega
  · simp

/-- `EmbeddingManager._preprocess_query`: lowercase the query, find numeric
literals and comparison phrases, and build the variant list (the lowercased
query, plus two synthesized phrasings per literal/phrase pair when both were
found). -/
def _preprocess_query (query : String) : List String :=
  let q := pyLowerL query.data
  let amounts := findAmounts q
  let comparisons := findComparisons q
  let base := [String.mk q]
  if amounts ≠ [] ∧ comparisons ≠ [] then
    base ++ amounts.flatMap (fun amount =>
      comparisons.flatMap (fun comp =>
        [String.mk ("records where value is ".data ++ comp ++ ' ' :: amount),
         String.mk ("entries with values ".data ++ comp ++ ' ' :: amount)]))
  else base

/-! ## Theorems for claim C8 (query preprocessing) -/

/-- **C8** (amended). For every query string, `_preprocess_query` returns a
variant list that always includes the lowercased original text as one
variant, and, whenever at least one numeric literal and at least one
comparison phrase are both detected, additionally contains the synthesized
phrasing "records where value is {comparison} {amount}" for every
literal/phrase pair found. (The code lowercases the query before adding it
as a variant, so it is the lowercased original, not the original, that is
always included.) -/
theorem preprocess_query_variants (q : String) :
    pyLower q ∈ _preprocess_query q ∧
    ∀ amount ∈ findAmounts (pyLowerL q.data),
      ∀ comp ∈ findComparisons (pyLowerL q.data),
        String.mk ("records where value is ".data ++ comp ++ ' ' :: amount) ∈
          _preprocess_query q := by
  constructor
  · show String.mk (pyLowerL q.data) ∈ _preprocess_query q
    simp only [_preprocess_query]
    split
    · exact List.mem_append_left _ (List.mem_singleton.mpr rfl)
    · exact List.mem_singleton.mpr rfl
  · intro amount ha comp hc
    simp only [_preprocess_query]
    rw [if_pos ⟨List.ne_nil_of_mem ha, List.ne_nil_of_mem hc⟩]
    refine List.mem_append_right _ (List.mem_flatMap.mpr ⟨amount, ha, ?_⟩)
    refine List.mem_flatMap.mpr ⟨comp, hc, ?_⟩
    simp

/-- **C8** witness: on the query "more than 50", the literal `50` and the
phrase `more than` are detected, and the synthesized variant is present. -/
theorem preprocess_query_variants_witness :
    "50".data ∈ findAmounts (pyLowerL ("more than 50" : String).data) ∧
    "more than".data ∈ findComparisons (pyLowerL ("more than 50" : String).data) ∧
    pyLower "more than 50" ∈ _preprocess_query "more than 50" ∧
    String.mk ("records where value is ".data ++ "more than".data ++ ' ' :: "50".data) ∈
      _preprocess_query "more than 50" := by
  have ha : "50".data ∈ findAmounts (pyLowerL ("more than 50" : String).data) := by
    simp +decide [findAmounts, pyLowerL, toLowerChar, amountToken, amountRest,
      matchThousandsGroups, matchDecimalPart]
  have hc : "more than".data ∈ findComparisons (pyLowerL ("more than 50" : String).data) := by
    simp +decide [findComparisons, pyLowerL, toLowerChar, comparisonPhrases,
      List.find?, List.isPrefixOf]
  have h := preprocess_query_variants "more than 50"
  exact ⟨ha, hc, h.1, h.2 _ ha _ hc⟩

/-- **C8** counterexample to the claim as stated: the original text is *not*
always included as a variant — for the query "A" the returned variant list
is `["a"]` (the lowercased text), which does not contain `"A"`. -/
theorem preprocess_query_counterexample :
    _preprocess_query "A" = ["a"] ∧ ("A" : String) ∉ _preprocess_query "A" := by
  have h : _preprocess_query "A" = ["a"] := by
    simp only [_preprocess_query]
    rw [if_neg]
    · rfl
    · rintro ⟨ha, -⟩
      exact ha (by simp +decide [findAmounts, pyLowerL, toLowerChar])
  refine ⟨h, ?_⟩
  rw [h]
  decide

/-! ## Semantic column classification and table descriptions
(`EmbeddingManager._create_semantic_descriptions` / `create_table_descriptions`)

`ColumnMeta` is the column record of the persisted schema document
(`database.extract_schema`); only `name` and `type` feed classification. -/

structure ColumnMeta where
  name : String
  type : String
  nullable : Bool
  default : Option String
  description : String
deriving DecidableEq

/-- Branch 1 guard of the classifier: `'id' in col_name and col_name.endswith('id')`. -/
def idPattern (n : String) : Bool :=
  containsSub "id".data n.data && "id".data.isSuffixOf n.data

/-- Branch 3 guard: `'date' in col_name or col_type.startswith('date') or
col_type.startswith('timestamp')`. -/
def datePattern (n t : String) : Bool :=
  containsSub "date".data n.data || "date".data.isPrefixOf t.data
    || "timestamp".data.isPrefixOf t.data

/-- The monetary-keyword aliases of branch 2 (`['salary', 'wage', 'payment', 'amount']`). -/
def monetaryNames : List String := ["salary", "wage", "payment", "amount"]

/-- The naming keywords of branch 4 (`['name', 'title', 'label']`). -/
def namingNames : List String := ["name", "title", "label"]

/-- The semantic description assigned to one column by
`_create_semantic_descriptions` (the `semantic_desc` if/elif chain, operating
on the lowercased name and type). -/
def semanticDesc (colName colType : String) : String :=
  let col_name := pyLower colName
  let col_type := pyLower colType
  if idPattern col_name then
    "unique identifier for " ++ pyReplace col_name "_id" ""
  else if col_name ∈ monetaryNames then
    "monetary value representing " ++ col_name
  else if datePattern col_name col_type then
    "date/time information for " ++ pyReplace col_name "_date" ""
  else if col_name ∈ namingNames then
    "name or title field"
  else
    pyReplace col_name "_" " " ++ " information"

/-- One entry of `column_descriptions`: `f"{col['name']} ({col['type']}): {semantic_desc}"`. -/
def column_description (col : ColumnMeta) : String :=
  col.name ++ " (" ++ col.type ++ "): " ++ semanticDesc col.name col.type

/-- `table_purpose` sentence of `_create_semantic_descriptions`. -/
def table_purpose (table_name : String) : String :=
  "This table named " ++ table_name ++ " stores information about "
    ++ pyReplace (pyLower table_name) "_" " "

/-- Python `', '.join(items)`. -/
def joinCommaSp : List String → String
  | [] => ""
  | [s] => s
  | s :: rest => s ++ ", " ++ joinCommaSp rest

/-- `any(t in col['type'].lower() for t in ts)`. -/
def typeHasAny (ts : List String) (colType : String) : Bool :=
  ts.any (fun t => containsSub t.data (pyLower colType).data)

/-- The description-variant list built for one table by the loop body of
`EmbeddingManager.create_table_descriptions`: the combined column-listing
sentence, the purpose sentence, one sentence per column, then the
pattern-based hints for numeric/text/date columns. -/
def create_table_descriptions (table_name : String) (columns : List ColumnMeta) :
    List String :=
  let descriptions :=
    ("Table " ++ table_name ++ " contains columns: "
        ++ joinCommaSp (columns.map column_description))
    :: table_purpose table_name
    :: columns.map (fun col => "Information about " ++ semanticDesc col.name col.type)
  let numeric_columns := columns.filter
    (fun col => typeHasAny ["int", "decimal", "numeric", "float"] col.type)
  let text_columns := columns.filter (fun col => typeHasAny ["char", "text"] col.type)
  let date_columns := columns.filter (fun col => typeHasAny ["date", "timestamp"] col.type)
  descriptions
    ++ (if numeric_columns ≠ [] then
          numeric_columns.map (fun col =>
            "Find " ++ table_name ++ " with " ++ col.name
              ++ " greater than or less than a value")
        else [])
    ++ (if text_columns ≠ [] then
          text_columns.map (fun col => "Search " ++ table_name ++ " by " ++ col.name)
        else [])
    ++ (if date_columns ≠ [] then
          date_columns.map (fun col =>
            "Filter " ++ table_name ++ " by " ++ col.name ++ " date range")
        else [])

/-! ## Theorems for claims C5 and C7 (classification and description synthesis) -/

/-- **C5** (amended). Semantic classification follows the stated precedence
with first match winning, where the monetary-keyword aliases are
salary, wage, payment, amount (the source does *not* include `price`):
(1) a name containing 'id' and ending with 'id' yields the identifier role;
(2) otherwise a monetary alias yields the monetary-value role;
(3) otherwise 'date' in the name or a type beginning with date/timestamp
yields the temporal role; (4) otherwise a name among name/title/label yields
the naming role; (5) otherwise the generic information role. In particular
`customer_id` is classified identifier-role and `order_date` temporal-role.
(All matching is on the lowercased name/type, as in the source.) -/
theorem semanticDesc_precedence (name type : String) :
    (idPattern (pyLower name) = true →
      semanticDesc name type = "unique identifier for " ++ pyReplace (pyLower name) "_id" "") ∧
    (idPattern (pyLower name) = false → pyLower name ∈ monetaryNames →
      semanticDesc name type = "monetary value representing " ++ pyLower name) ∧
    (idPattern (pyLower name) = false → pyLower name ∉ monetaryNames →
      datePattern (pyLower name) (pyLower type) = true →
      semanticDesc name type = "date/time information for " ++ pyReplace (pyLower name) "_date" "") ∧
    (idPattern (pyLower name) = false → pyLower name ∉ monetaryNames →
      datePattern (pyLower name) (pyLower type) = false → pyLower name ∈ namingNames →
      semanticDesc name type = "name or title field") ∧
    (idPattern (pyLower name) = false → pyLower name ∉ monetaryNames →
      datePattern (pyLower name) (pyLower type) = false → pyLower name ∉ namingNames →
      semanticDesc name type = pyReplace (pyLower name) "_" " " ++ " information") ∧
    semanticDesc "customer_id" "integer" = "unique identifier for customer" ∧
    semanticDesc "order_date" "text" = "date/time information for order" := by
  refine ⟨?_, ?_, ?_, ?_, ?_, ?_, ?_⟩
  · intro h1
    simp only [semanticDesc, h1, if_true]
  · intro h1 h2
    simp only [semanticDesc, h1, Bool.false_eq_true, if_false, if_pos h2]
  · intro h1 h2 h3
    simp only [semanticDesc, h1, Bool.false_eq_true, if_false, if_neg h2, h3, if_true]
  · intro h1 h2 h3 h4
    simp only [semanticDesc, h1, h3, Bool.false_eq_true, if_false, if_neg h2, if_pos h4]
  · intro h1 h2 h3 h4
    simp only [semanticDesc, h1, h3, Bool.false_eq_true, if_false, if_neg h2, if_neg h4]
  · simp +decide [semanticDesc, idPattern, pyLower, pyLowerL, toLowerChar, containsSub,
      splitOnFirst, replaceAll, pyReplace]
  · simp +decide [semanticDesc, idPattern, datePattern, pyLower, pyLowerL, toLowerChar,
      containsSub, splitOnFirst, replaceAll, pyReplace, monetaryNames]

/-- **C5** witness: each hypothesis of the precedence theorem discharged at a
concrete column — `customer_id` (branch 1), `salary` (branch 2), `order_date`
(branch 3), `title` (branch 4), `notes` (branch 5). -/
theorem semanticDesc_precedence_witness :
    semanticDesc "customer_id" "integer" = "unique identifier for customer" ∧
    semanticDesc "salary" "numeric" = "monetary value representing salary" ∧
    semanticDesc "order_date" "text" = "date/time information for order" ∧
    semanticDesc "title" "varchar" = "name or title field" ∧
    semanticDesc "notes" "" = "notes information" := by
  have h1 := (semanticDesc_precedence "customer_id" "integer").2.2.2.2.2.1
  have h2 := (semanticDesc_precedence "salary" "numeric").2.1
    (by simp +decide [idPattern, pyLower, pyLowerL, toLowerChar, containsSub, splitOnFirst])
    (by simp +decide [pyLower, pyLowerL, toLowerChar, monetaryNames])
  have h3 := (semanticDesc_precedence "order_date" "text").2.2.2.2.2.2
  have h4 := (semanticDesc_precedence "title" "varchar").2.2.2.1
    (by simp +decide [idPattern, pyLower, pyLowerL, toLowerChar, containsSub, splitOnFirst])
    (by simp +decide [pyLower, pyLowerL, toLowerChar, monetaryNames])
    (by simp +decide [datePattern, pyLower, pyLowerL, toLowerChar, containsSub, splitOnFirst])
    (by simp +decide [pyLower, pyLowerL, toLowerChar, namingNames])
  have h5 := (semanticDesc_precedence "notes" "").2.2.2.2.1
    (by simp +decide [idPattern, pyLower, pyLowerL, toLowerChar, containsSub, splitOnFirst])
    (by simp +decide [pyLower, pyLowerL, toLowerChar, monetaryNames])
    (by simp +decide [datePattern, pyLower, pyLowerL, toLowerChar, containsSub, splitOnFirst])
    (by simp +decide [pyLower, pyLowerL, toLowerChar, namingNames])
  refine ⟨h1, h2, h3, h4, ?_⟩
  rw [h5]
  simp +decide [pyReplace, replaceAll, pyLower, pyLowerL, toLowerChar]

/-- **C5** counterexample to the claim as stated: the source's monetary alias
list is `['salary', 'wage', 'payment', 'amount']` — it does not contain
`price` — so a column named `price` falls through to the generic information
role instead of the claimed monetary-value role. -/
theorem semanticDesc_price_counterexample :
    semanticDesc "price" "numeric" = "price information" ∧
    semanticDesc "price" "numeric" ≠ "monetary value representing price" := by
  have h : semanticDesc "price" "numeric" = "price information" := by
    simp +decide [semanticDesc, idPattern, datePattern, pyLower, pyLowerL, toLowerChar,
      containsSub, splitOnFirst, replaceAll, pyReplace, monetaryNames, namingNames]
  exact ⟨h, by rw [h]; decide⟩

/-- **C7**. For every table schema with zero or more columns, description
synthesis is total (never raises — it is a total Lean function) and always
produces at least 2 description variants, the first two being the combined
column-listing sentence and the purpose sentence; a column whose name matches
none of the special patterns — in particular one with an unknown or empty
data type — falls through to the generic information role. -/
theorem create_table_descriptions_spec (table_name : String) (columns : List ColumnMeta) :
    2 ≤ (create_table_descriptions table_name columns).length ∧
    (create_table_descriptions table_name columns).take 2 =
      ["Table " ++ table_name ++ " contains columns: "
          ++ joinCommaSp (columns.map column_description),
        table_purpose table_name] ∧
    ∀ col ∈ columns,
      idPattern (pyLower col.name) = false → pyLower col.name ∉ monetaryNames →
      datePattern (pyLower col.name) (pyLower col.type) = false →
      pyLower col.name ∉ namingNames →
      semanticDesc col.name col.type = pyReplace (pyLower col.name) "_" " " ++ " information" := by
  refine ⟨?_, ?_, ?_⟩
  · simp only [create_table_descriptions, List.length_append, List.length_cons]
    omega
  · simp [create_table_descriptions]
  · intro col _ h1 h2 h3 h4
    exact (semanticDesc_precedence col.name col.type).2.2.2.2.1 h1 h2 h3 h4

/-- **C7** witness: a table with zero columns still yields (exactly) its two
base variants, and a column with an empty data type and non-special name gets
the generic role. -/
theorem create_table_descriptions_witness :
    2 ≤ (create_table_descriptions "empty_table" []).length ∧
    (create_table_descriptions "empty_table" []).take 2 =
      ["Table empty_table contains columns: ", table_purpose "empty_table"] ∧
    semanticDesc "notes" "" = pyReplace (pyLower "notes") "_" " " ++ " information" := by
  have h := create_table_descriptions_spec "empty_table" []
  have h' := create_table_descriptions_spec "t" [⟨"notes", "", false, none, ""⟩]
  refine ⟨h.1, ?_, ?_⟩
  · rw [h.2.1]
    simp [column_description, joinCommaSp]
  · exact h'.2.2 ⟨"notes", "", false, none, ""⟩ (by simp)
      (by simp +decide [idPattern, pyLower, pyLowerL, toLowerChar, containsSub, splitOnFirst])
      (by simp +decide [pyLower, pyLowerL, toLowerChar, monetaryNames])
      (by simp +decide [datePattern, pyLower, pyLowerL, toLowerChar, containsSub, splitOnFirst])
      (by simp +decide [pyLower, pyLowerL, toLowerChar, namingNames])

/-! ## The persisted schema document (`database.extract_schema` /
`embedding_manager.load_schema`)

`extract_schema` serializes `schema_info` — a mapping from qualified table
name to `{schema, columns: [{name, type, nullable, default, description}]}` —
with `json.dump`; `load_schema` reads it back with `json.load`. The JSON
text layer itself is the standard-library collaborator, modelled here at the
level of the JSON document tree: `Json` is the document, `encode…` builds
the document exactly as the dict literals of `extract_schema` do, and
`decode…` reads the fields back as the consumers of `schema_info` do. -/

inductive Json where
  | null : Json
  | str (s : String) : Json
  | bool (b : Bool) : Json
  | arr (items : List Json) : Json
  | obj (fields : List (String × Json)) : Json

/-- A table entry of the schema store: `{'schema': …, 'columns': […]}`. -/
structure TableInfo where
  schema : String
  columns : List ColumnMeta
deriving DecidableEq

/-- The in-memory schema store: qualified table name to table entry, in
insertion order (Python dicts preserve it). -/
def SchemaStore : Type := List (String × TableInfo)

/-- The column dict written by `extract_schema`
(`{'name': …, 'type': …, 'nullable': is_nullable == 'YES', 'default': …, 'description': … or ''}`). -/
def encodeCol (c : ColumnMeta) : Json :=
  .obj [("name", .str c.name), ("type", .str c.type), ("nullable", .bool c.nullable),
        ("default", match c.default with | some s => .str s | none => .null),
        ("description", .str c.description)]

/-- Reading one column dict back from the persisted document. -/
def decodeCol : Json → Option ColumnMeta
  | .obj [("name", .str n), ("type", .str t), ("nullable", .bool b),
          ("default", d), ("description", .str ds)] =>
    match d with
    | .null => some ⟨n, t, b, none, ds⟩
    | .str s => some ⟨n, t, b, some s, ds⟩
    | _ => none
  | _ => none

/-- The table dict written by `extract_schema`. -/
def encodeTable (info : TableInfo) : Json :=
  .obj [("schema", .str info.schema), ("columns", .arr (info.columns.map encodeCol))]

/-- Decode a list of column dicts, failing if any entry fails. -/
def decodeCols : List Json → Option (List ColumnMeta)
  | [] => some []
  | j :: rest =>
    match decodeCol j, decodeCols rest with
    | some c, some cs => some (c :: cs)
    | _, _ => none

/-- Reading one table dict back from the persisted document. -/
def decodeTable : Json → Option TableInfo
  | .obj [("schema", .str s), ("columns", .arr cols)] =>
    match decodeCols cols with
    | some cs => some ⟨s, cs⟩
    | none => none
  | _ => none

/-- The whole persisted document: one object field per table, in store order. -/
def encodeStore (store : SchemaStore) : Json :=
  .obj (store.map (fun p => (p.1, encodeTable p.2)))

/-- Reading the whole document back into the mapping. -/
def decodeStore : Json → Option SchemaStore
  | .obj fields =>
    let rec go : List (String × Json) → Option SchemaStore
      | [] => some []
      | (k, v) :: rest =>
        match decodeTable v, go rest with
        | some info, some tail => some ((k, info) :: tail)
        | _, _ => none
    go fields
  | _ => none

theorem decodeCol_encodeCol (c : ColumnMeta) : decodeCol (encodeCol c) = some c := by
  cases c with
  | mk n t b d ds => cases d <;> simp [encodeCol, decodeCol]

theorem decodeCols_encodeCols (cols : List ColumnMeta) :
    decodeCols (cols.map encodeCol) = some cols := by
  induction cols with
  | nil => simp [decodeCols]
  | cons c rest ih => simp [decodeCols, decodeCol_encodeCol, ih]

theorem decodeTable_encodeTable (info : TableInfo) :
    decodeTable (encodeTable info) = some info := by
  cases info with
  | mk s cols => simp [encodeTable, decodeTable, decodeCols_encodeCols]

/-- **C9**. Round-trip: serializing a schema store to the persisted JSON
document (mapping qualified table name to
`{schema, columns: [{name, type, nullable, default, description}]}`) and
reloading that document reproduces an identical mapping — the same tables
with the same column lists in the same order. -/
theorem schema_store_roundtrip (store : SchemaStore) :
    decodeStore (encodeStore store) = some store := by
  induction store with
  | nil => simp [encodeStore, decodeStore, decodeStore.go]
  | cons p rest ih =>
    simp only [encodeStore, List.map_cons, decodeStore, decodeStore.go,
      decodeTable_encodeTable]
    simp only [encodeStore, decodeStore] at ih
    rw [ih]

/-! ## Intent extraction (`QueryGenerator._extract_query_intent`)

The language-model call is the external collaborator: its outcome is either a
transport error (anything raised by `messages.create`) or a response whose
content blocks carry text. `json.loads` together with the use of the parsed
value as the intent dictionary is abstracted as a `parseJson` parameter
returning `none` exactly when parsing fails (`JSONDecodeError`). All failure
paths of the source — the outer `except Exception`, the inner
`except (JSONDecodeError, IndexError, KeyError)`, and the `NameError` raised
inside the inner handler when the content list is empty (caught by the outer
handler) — return the same degraded default dictionary. -/

structure QueryIntent where
  target_columns : List String
  conditions : List String
  subject : Option String
  output_columns : List String
deriving DecidableEq

/-- The degraded default intent returned on any failure path. -/
def defaultIntent : QueryIntent :=
  ⟨[], [], none, ["name", "price", "category"]⟩

/-- Outcome of the external language-model call. -/
inductive LMResponse where
  | err (msg : String) : LMResponse
  | ok (content : List String) : LMResponse

/-- The markdown-fence stripping applied to the model's intent response:
`split("```json")[1].split("```")[0]` when "```json" occurs, else
`split("```")[1]` when "```" occurs, else the text unchanged. -/
def stripJsonFences (l : List Char) : List Char :=
  match splitOnFirst "```json".data l with
  | some (_, rest) =>
    let seg := match splitOnFirst "```json".data rest with
      | some (before, _) => before
      | none => rest
    (match splitOnFirst "```".data seg with
      | some (before, _) => before
      | none => seg)
  | none =>
    match splitOnFirst "```".data l with
    | some (_, rest) =>
      (match splitOnFirst "```".data rest with
        | some (before, _) => before
        | none => rest)
    | none => l

/-- `QueryGenerator._extract_query_intent`, as a function of the model-call
outcome: on success, the first content block's text is fence-stripped,
stripped of whitespace, and parsed; every failure path yields
`defaultIntent`. -/
def _extract_query_intent (parseJson : String → Option QueryIntent) :
    LMResponse → QueryIntent
  | .err _ => defaultIntent
  | .ok [] => defaultIntent
  | .ok (text :: _) =>
    match parseJson (String.mk (pyStrip (stripJsonFences text.data))) with
    | some intent => intent
    | none => defaultIntent

/-- **C6**. Intent extraction never raises to its caller (it is a total
function of the model-call outcome): on any transport error, on an empty
content list, and on any unparseable response text it returns the degraded
default `QueryIntent`, whose fields are the empty target-column list, the
empty condition list, the null subject, and the fixed fallback output-column
list `["name", "price", "category"]`. -/
theorem extract_query_intent_spec (parseJson : String → Option QueryIntent) :
    (∀ msg, _extract_query_intent parseJson (.err msg) = defaultIntent) ∧
    _extract_query_intent parseJson (.ok []) = defaultIntent ∧
    (∀ text rest,
      parseJson (String.mk (pyStrip (stripJsonFences text.data))) = none →
      _extract_query_intent parseJson (.ok (text :: rest)) = defaultIntent) ∧
    defaultIntent = ⟨[], [], none, ["name", "price", "category"]⟩ := by
  refine ⟨fun msg => rfl, rfl, ?_, rfl⟩
  intro text rest h
  simp [_extract_query_intent, h]

/-- **C6** witness: a parser that fails on everything, a transport error, an
empty content list, and a non-JSON response text all yield the default. -/
theorem extract_query_intent_witness :
    _extract_query_intent (fun _ => none) (.err "connection reset") = defaultIntent ∧
    _extract_query_intent (fun _ => none) (.ok []) = defaultIntent ∧
    _extract_query_intent (fun _ => none) (.ok ["not json"]) = defaultIntent := by
  have h := extract_query_intent_spec (fun _ => none)
  exact ⟨h.1 "connection reset", h.2.1, h.2.2.1 "not json" [] rfl⟩


/-! ## SQL cleaning (`QueryGenerator._clean_sql_query`)

Step by step: (1) `re.sub(r'--.*$|/\*.*?\*/', '', sql, flags=re.MULTILINE)` —
a `--` comment runs to end of line, a `/* */` comment must close on the same
line (`.` does not match newlines) or it is left untouched; (2) markdown
fence stripping; (3) `re.findall(r'SELECT.*?;', sql, re.IGNORECASE|re.DOTALL)`
and take the first match if any; (4) otherwise strip, require a
case-insensitive `select` prefix (else `ValueError`), append `;` if missing;
(5) collapse whitespace with `' '.join(sql.split())`. -/

/-- Consume the rest of the line after `--` (the newline itself survives,
`$` being zero-width). -/
def dropLineRest : List Char → List Char
  | [] => []
  | c :: rest => if c = '\n' then c :: rest else dropLineRest rest

theorem dropLineRest_length (l : List Char) : (dropLineRest l).length ≤ l.length := by
  induction l with
  | nil => simp [dropLineRest]
  | cons c rest ih =>
    rw [dropLineRest]
    split
    · simp
    · simp
      omega

/-- Find the closing `*/` of a block comment on the current line: `some rest`
(text after `*/`) if `*/` occurs before any newline, else `none` (the lazy
`.*?` cannot cross a newline without DOTALL). -/
def findBlockEnd : List Char → Option (List Char)
  | [] => none
  | c :: rest =>
    if c = '\n' then none
    else if c = '*' ∧ rest.head? = some '/' then some rest.tail
    else findBlockEnd rest

theorem findBlockEnd_length : ∀ (l r : List Char), findBlockEnd l = some r → r.length ≤ l.length := by
  intro l
  induction l with
  | nil => intro r h; simp [findBlockEnd] at h
  | cons c rest ih =>
    intro r h
    rw [findBlockEnd] at h
    split at h
    · exact absurd h (by simp)
    · split at h
      · obtain ⟨rfl⟩ : rest.tail = r := by simpa using h
        have := List.length_tail rest
        simp
        omega
      · have := ih r h
        simp
        omega

/-- `re.sub(r'--.*$|/\*.*?\*/', '', sql, flags=re.MULTILINE)`: scan left to
right; at `--` delete to end of line; at `/*` with a same-line closing `*/`
delete through it; otherwise keep the character (an unclosed block comment is
left as-is, as the regex fails to match there). -/
def stripComments : List Char → List Char
  | [] => []
  | c :: rest =>
    if c = '-' ∧ rest.head? = some '-' then stripComments (dropLineRest rest.tail)
    else if c = '/' ∧ rest.head? = some '*' then
      match h : findBlockEnd rest.tail with
      | some rest' => stripComments rest'
      | none => c :: stripComments rest
    else c :: stripComments rest
termination_by l => l.length
decreasing_by
  · have h1 := dropLineRest_length rest.tail
    have h2 := List.length_tail rest
    simp
    omega
  · have h1 := findBlockEnd_length rest.tail rest' h
    have h2 := List.length_tail rest
    simp
    omega
  · simp
  · simp

/-- Markdown fence stripping of `_clean_sql_query`:
`split("```sql")[1].split("```")[0]` when present, else
`split("```")[1].split("```")[0]` when present, else unchanged. -/
def stripSqlFences (l : List Char) : List Char :=
  match splitOnFirst "```sql".data l with
  | some (_, rest) =>
    let seg := match splitOnFirst "```sql".data rest with
      | some (before, _) => before
      | none => rest
    (match splitOnFirst "```".data seg with
      | some (before, _) => before
      | none => seg)
  | none =>
    match splitOnFirst "```".data l with
    | some (_, rest) =>
      let seg := match splitOnFirst "```".data rest with
        | some (before, _) => before
        | none => rest
      (match splitOnFirst "```".data seg with
        | some (before, _) => before
        | none => seg)
    | none => l

/-- Does `pyLowerL` of the first 6 characters spell `select`? (Python
`sql.lower().startswith('select')`, and the case-insensitive `SELECT` of the
regex.) -/
def startsSelectCI (l : List Char) : Bool :=
  "select".data.isPrefixOf (pyLowerL l)

/-- Characters up to and including the first `;`, or `none` if there is no
`;` (the lazy `.*?;` with DOTALL). -/
def takeThroughSemicolon : List Char → Option (List Char)
  | [] => none
  | c :: rest =>
    if c = ';' then some [';']
    else
      match takeThroughSemicolon rest with
      | some span => some (c :: span)
      | none => none

/-- The first match of `re.findall(r'SELECT.*?;', l, re.IGNORECASE|re.DOTALL)`:
the engine tries each position left to right; at a case-insensitive `select`
it takes the lazy span through the first following `;`. -/
def findSelectSpan : List Char → Option (List Char)
  | [] => none
  | c :: rest =>
    if startsSelectCI (c :: rest) then
      match takeThroughSemicolon ((c :: rest).drop 6) with
      | some span => some ((c :: rest).take 6 ++ span)
      | none => findSelectSpan rest
    else findSelectSpan rest

/-- Python `s.endswith(';')`. -/
def endsSemi (l : List Char) : Bool := l.getLast? = some ';'

/-- `QueryGenerator._clean_sql_query`. The `ValueError` of the source (and
its re-raise in the `except` handler) is the `Except.error` case. -/
def _clean_sql_query (sql : String) : Except String String :=
  let s1 := stripComments sql.data
  let s2 := stripSqlFences s1
  match findSelectSpan s2 with
  | some span => .ok (String.mk (collapseWs span))
  | none =>
    let s3 := pyStrip s2
    if startsSelectCI s3 then
      .ok (String.mk (collapseWs (if endsSemi s3 then s3 else s3 ++ [';'])))
    else
      .error "Invalid SQL query: must start with SELECT"

/-! ### Helper lemmas about whitespace collapse and the select prefix -/

theorem pyIsSpace_toLowerChar_eq {c : Char} (h : pyIsSpace c = true) : toLowerChar c = c := by
  simp [pyIsSpace] at h
  rcases h with rfl | rfl | rfl | rfl | rfl | rfl <;> decide

theorem toLowerChar_nonspace {c x : Char} (hx : pyIsSpace x = false)
    (h : toLowerChar c = x) : pyIsSpace c = false := by
  by_contra hc
  rw [Bool.not_eq_false] at hc
  have h2 := pyIsSpace_toLowerChar_eq hc
  rw [h] at h2
  subst h2
  rw [hc] at hx
  exact absurd hx (by simp)

theorem selectChars_nonspace : ∀ x ∈ "select".data, pyIsSpace x = false := by decide

theorem isPrefixOf_pyLowerL_takeWhile (pre : List Char)
    (hpre : ∀ x ∈ pre, pyIsSpace x = false) :
    ∀ l : List Char, pre.isPrefixOf (pyLowerL l) = true →
      pre.isPrefixOf (pyLowerL (l.takeWhile (fun c => !pyIsSpace c))) = true := by
  induction pre with
  | nil => intro l _; simp [List.isPrefixOf]
  | cons x pre' ih =>
    intro l h
    cases l with
    | nil => simp [pyLowerL, List.isPrefixOf] at h
    | cons c l' =>
      simp only [pyLowerL, List.map_cons, List.isPrefixOf, Bool.and_eq_true, beq_iff_eq] at h
      obtain ⟨hx, hrest⟩ := h
      have hcs : pyIsSpace c = false :=
        toLowerChar_nonspace (hpre x (by simp)) hx.symm
      rw [List.takeWhile_cons_of_pos (by simp [hcs])]
      simp only [pyLowerL, List.map_cons, List.isPrefixOf, Bool.and_eq_true, beq_iff_eq]
      exact ⟨hx, ih (fun y hy => hpre y (by simp [hy])) l' hrest⟩

theorem startsSelectCI_ne_nil {l : List Char} (h : startsSelectCI l = true) : l ≠ [] := by
  intro hnil
  subst hnil
  simp [startsSelectCI, pyLowerL, List.isPrefixOf] at h

theorem startsSelectCI_head_nonspace {c : Char} {rest : List Char}
    (h : startsSelectCI (c :: rest) = true) : pyIsSpace c = false := by
  simp only [startsSelectCI, pyLowerL, List.map_cons, List.isPrefixOf,
    Bool.and_eq_true, beq_iff_eq] at h
  exact toLowerChar_nonspace (by decide) h.1.symm

theorem prefix_isPrefixOf_pyLowerL {pre l₁ l₂ : List Char}
    (h : pre.isPrefixOf (pyLowerL l₁) = true) :
    pre.isPrefixOf (pyLowerL (l₁ ++ l₂)) = true := by
  rw [List.isPrefixOf_iff_prefix] at h ⊢
  simp only [pyLowerL, List.map_append]
  exact h.trans (List.prefix_append _ _)

theorem joinSpace_cons_prefix (t : List Char) (toks : List (List Char)) :
    t <+: joinSpace (t :: toks) := by
  cases toks with
  | nil => simp [joinSpace]
  | cons t' toks' => exact ⟨' ' :: joinSpace (t' :: toks'), rfl⟩

theorem collapseWs_startsSelect {l : List Char} (h : startsSelectCI l = true) :
    startsSelectCI (collapseWs l) = true := by
  cases l with
  | nil => exact absurd rfl (startsSelectCI_ne_nil h)
  | cons c rest =>
    have hcs := startsSelectCI_head_nonspace h
    have hsplit : pySplitWs (c :: rest) =
        (takeToken (c :: rest)).1 :: pySplitWs (takeToken (c :: rest)).2 := by
      rw [pySplitWs]
      simp [hcs]
    have htok : startsSelectCI ((c :: rest).takeWhile (fun x => !pyIsSpace x)) = true :=
      isPrefixOf_pyLowerL_takeWhile _ selectChars_nonspace _ h
    obtain ⟨s, hs⟩ := joinSpace_cons_prefix (takeToken (c :: rest)).1
      (pySplitWs (takeToken (c :: rest)).2)
    show startsSelectCI (joinSpace (pySplitWs (c :: rest))) = true
    rw [hsplit, ← hs]
    simp only [takeToken]
    exact prefix_isPrefixOf_pyLowerL htok

theorem endsSemi_ne_nil {l : List Char} (h : endsSemi l = true) : l ≠ [] := by
  intro hnil
  subst hnil
  simp [endsSemi] at h

theorem endsSemi_append_right {x r : List Char} (h : endsSemi r = true) :
    endsSemi (x ++ r) = true := by
  simp only [endsSemi, decide_eq_true_eq] at h ⊢
  rw [List.getLast?_append, h]
  rfl

theorem collapseWs_endsSemi : ∀ {l : List Char}, endsSemi l = true → endsSemi (collapseWs l) = true := by
  intro l
  induction l using pySplitWs.induct with
  | case1 => intro h; exact absurd h (by decide)
  | case2 c rest hsp ih =>
    intro h
    have hrest : rest ≠ [] := by
      intro hnil
      subst hnil
      have : c = ';' := by simpa [endsSemi] using h
      subst this
      exact absurd hsp (by decide)
    have hsemi : endsSemi rest = true := by
      cases rest with
      | nil => exact absurd rfl hrest
      | cons r rs => simpa [endsSemi, List.getLast?_cons_cons] using h
    have hsplit : pySplitWs (c :: rest) = pySplitWs rest := by
      rw [pySplitWs]
      simp [hsp]
    show endsSemi (joinSpace (pySplitWs (c :: rest))) = true
    rw [hsplit]
    exact ih hsemi
  | case3 c rest hsp ih =>
    intro h
    have hq : (!pyIsSpace c) = true := by simp [hsp]
    have hdecomp : (takeToken (c :: rest)).1 ++ (takeToken (c :: rest)).2 = c :: rest := by
      simp [takeToken, List.takeWhile_append_dropWhile]
    have hsplit : pySplitWs (c :: rest) =
        (takeToken (c :: rest)).1 :: pySplitWs (takeToken (c :: rest)).2 := by
      rw [pySplitWs]
      simp [hsp]
    show endsSemi (joinSpace (pySplitWs (c :: rest))) = true
    rw [hsplit]
    by_cases hr : (takeToken (c :: rest)).2 = []
    · have htokeq : (takeToken (c :: rest)).1 = c :: rest := by
        rw [hr, List.append_nil] at hdecomp
        exact hdecomp
      rw [hr]
      have hnil : pySplitWs ([] : List Char) = [] := by rw [pySplitWs]
      rw [hnil]
      simpa [joinSpace, htokeq] using h
    · have hsemi2 : endsSemi (takeToken (c :: rest)).2 = true := by
        rw [← hdecomp] at h
        simp only [endsSemi, decide_eq_true_eq, List.getLast?_append] at h ⊢
        cases hg : (takeToken (c :: rest)).2.getLast? with
        | none => exact absurd (List.getLast?_eq_none_iff.mp hg) hr
        | some a => rw [hg] at h; simpa using h
      have h2 := ih hsemi2
      have hne2 := endsSemi_ne_nil h2
      cases htoks : pySplitWs (takeToken (c :: rest)).2 with
      | nil =>
        rw [collapseWs, htoks] at h2
        exact absurd h2 (by decide)
      | cons t ts =>
        rw [collapseWs, htoks] at h2
        show endsSemi (joinSpace ((takeToken (c :: rest)).1 :: t :: ts)) = true
        have hjoin : joinSpace ((takeToken (c :: rest)).1 :: t :: ts) =
            ((takeToken (c :: rest)).1 ++ [' ']) ++ joinSpace (t :: ts) := by
          simp [joinSpace]
        rw [hjoin]
        exact endsSemi_append_right h2

theorem takeThroughSemicolon_spec :
    ∀ {l t : List Char}, takeThroughSemicolon l = some t → t ≠ [] ∧ endsSemi t = true := by
  intro l
  induction l with
  | nil => intro t h; simp [takeThroughSemicolon] at h
  | cons c rest ih =>
    intro t h
    rw [takeThroughSemicolon] at h
    split at h
    · obtain rfl : [';'] = t := by simpa using h
      exact ⟨by simp, by decide⟩
    · cases hm : takeThroughSemicolon rest with
      | none => rw [hm] at h; simp at h
      | some span =>
        rw [hm] at h
        obtain rfl : c :: span = t := by simpa using h
        obtain ⟨hne, hsemi⟩ := ih hm
        exact ⟨by simp, by
          have : c :: span = [c] ++ span := rfl
          rw [this]
          exact endsSemi_append_right hsemi⟩

theorem findSelectSpan_spec :
    ∀ {l span : List Char}, findSelectSpan l = some span →
      startsSelectCI span = true ∧ endsSemi span = true := by
  intro l
  induction l with
  | nil => intro span h; simp [findSelectSpan] at h
  | cons c rest ih =>
    intro span h
    rw [findSelectSpan] at h
    by_cases hsel : startsSelectCI (c :: rest) = true
    · rw [if_pos hsel] at h
      cases hm : takeThroughSemicolon ((c :: rest).drop 6) with
      | none => rw [hm] at h; exact ih h
      | some tts =>
        rw [hm] at h
        obtain rfl : (c :: rest).take 6 ++ tts = span := by simpa using h
        obtain ⟨hne, hsemi⟩ := takeThroughSemicolon_spec hm
        refine ⟨?_, endsSemi_append_right hsemi⟩
        have hpre : "select".data = pyLowerL ((c :: rest).take 6) := by
          have h1 : "select".data <+: pyLowerL (c :: rest) :=
            List.isPrefixOf_iff_prefix.mp hsel
          have h2 := List.prefix_iff_eq_take.mp h1
          have hlen : ("select".data : List Char).length = 6 := by decide
          rw [hlen] at h2
          rw [h2]
          simp only [pyLowerL]
          rw [← List.map_take]
        apply prefix_isPrefixOf_pyLowerL
        rw [← hpre]
        exact List.isPrefixOf_iff_prefix.mpr (List.prefix_refl _)
    · rw [if_neg hsel] at h
      exact ih h

theorem string_mk_ne_empty {l : List Char} (h : l ≠ []) : String.mk l ≠ "" :=
  fun he => h (congrArg String.data he)


theorem collapse_output_ok {x : List Char} (h1 : startsSelectCI x = true)
    (h2 : endsSemi x = true) :
    String.mk (collapseWs x) ≠ "" ∧
    startsSelectCI (String.mk (collapseWs x)).data = true ∧
    endsSemi (String.mk (collapseWs x)).data = true := by
  have hs := collapseWs_startsSelect h1
  have he := collapseWs_endsSemi h2
  exact ⟨string_mk_ne_empty (startsSelectCI_ne_nil hs), hs, he⟩

/-- **C1**. For every string input, `_clean_sql_query` either fails with the
invalid-generated-query error or returns a non-empty string that (being the
result of comment stripping, code-fence stripping, span isolation and
whitespace collapsing) begins case-insensitively with `SELECT` and ends with
a terminating `;`; and whenever no `SELECT … ;` span is found by the pattern
match and the trimmed text does not begin case-insensitively with `SELECT`,
it fails with the invalid-generated-query error rather than returning a
value. -/
theorem clean_sql_query_spec (sql : String) :
    (∀ out, _clean_sql_query sql = .ok out →
      out ≠ "" ∧ startsSelectCI out.data = true ∧ endsSemi out.data = true) ∧
    (findSelectSpan (stripSqlFences (stripComments sql.data)) = none →
      startsSelectCI (pyStrip (stripSqlFences (stripComments sql.data))) = false →
      _clean_sql_query sql = .error "Invalid SQL query: must start with SELECT") := by
  constructor
  · intro out hout
    simp only [_clean_sql_query] at hout
    cases hspan : findSelectSpan (stripSqlFences (stripComments sql.data)) with
    | some span =>
      rw [hspan] at hout
      simp only [Except.ok.injEq] at hout
      subst hout
      obtain ⟨ha, hb⟩ := findSelectSpan_spec hspan
      exact collapse_output_ok ha hb
    | none =>
      rw [hspan] at hout
      by_cases hsel :
          startsSelectCI (pyStrip (stripSqlFences (stripComments sql.data))) = true
      · rw [if_pos hsel] at hout
        simp only [Except.ok.injEq] at hout
        subst hout
        by_cases hes : endsSemi (pyStrip (stripSqlFences (stripComments sql.data))) = true
        · rw [if_pos hes]
          exact collapse_output_ok hsel hes
        · rw [if_neg hes]
          refine collapse_output_ok (prefix_isPrefixOf_pyLowerL hsel) ?_
          simp [endsSemi, List.getLast?_concat]
      · rw [if_neg hsel] at hout
        exact absurd hout (by simp)
  · intro hnone hsel
    simp only [_clean_sql_query]
    rw [hnone]
    rw [if_neg (by simp [hsel])]

/-- **C1** witness: the theorem applied at a successful input (`"SELECT 1;"`,
whose cleaned output is non-empty, select-prefixed and `;`-terminated) and at
a failing input (`"foo"`, where no span is found and the trimmed text does
not start with `select`, so the invalid-generated-query error is returned). -/
theorem clean_sql_query_spec_witness :
    _clean_sql_query "SELECT 1;" = .ok "SELECT 1;" ∧
    (("SELECT 1;" : String) ≠ "" ∧ startsSelectCI ("SELECT 1;" : String).data = true ∧
      endsSemi ("SELECT 1;" : String).data = true) ∧
    _clean_sql_query "foo" = .error "Invalid SQL query: must start with SELECT" := by
  have h1 : _clean_sql_query "SELECT 1;" = .ok "SELECT 1;" := by
    simp +decide [_clean_sql_query, stripComments, stripSqlFences, splitOnFirst,
      findSelectSpan, startsSelectCI, pyLowerL, toLowerChar, takeThroughSemicolon,
      collapseWs, pySplitWs, takeToken, joinSpace, dropLineRest, findBlockEnd, endsSemi,
      pyStrip, pyIsSpace]
  have h2 := (clean_sql_query_spec "SELECT 1;").1 "SELECT 1;" h1
  have h3 : findSelectSpan (stripSqlFences (stripComments ("foo" : String).data)) = none := by
    simp +decide [stripComments, stripSqlFences, splitOnFirst, findSelectSpan,
      startsSelectCI, pyLowerL, toLowerChar, takeThroughSemicolon, dropLineRest,
      findBlockEnd]
  have h4 : startsSelectCI (pyStrip (stripSqlFences (stripComments ("foo" : String).data)))
      = false := by
    simp +decide [stripComments, stripSqlFences, splitOnFirst, startsSelectCI, pyLowerL,
      toLowerChar, dropLineRest, findBlockEnd, pyStrip, pyIsSpace]
  exact ⟨h1, h2, (clean_sql_query_spec "foo").2 h3 h4⟩

/-- **C2** (amended). Multi-statement model output is *not* a hard failure:
whenever the pattern match finds a `SELECT … ;` span in the comment- and
fence-stripped text, post-processing returns the *first* such span
(whitespace-collapsed) — also when further statements follow it — and beyond
isolating that span it performs no repair other than comment/fence stripping
and whitespace collapsing (plus, only in the no-span case, appending a
terminator). -/
theorem clean_sql_first_span (sql : String) (span : List Char)
    (h : findSelectSpan (stripSqlFences (stripComments sql.data)) = some span) :
    _clean_sql_query sql = .ok (String.mk (collapseWs span)) := by
  simp only [_clean_sql_query]
  rw [h]

/-- **C2** witness: on the two-statement output `"SELECT x; SELECT y;"` the
found span is the first statement and the cleaner returns it. -/
theorem clean_sql_first_span_witness :
    findSelectSpan (stripSqlFences (stripComments ("SELECT x; SELECT y;" : String).data)) =
      some "SELECT x;".data ∧
    _clean_sql_query "SELECT x; SELECT y;" = .ok (String.mk (collapseWs "SELECT x;".data)) := by
  have h : findSelectSpan (stripSqlFences (stripComments ("SELECT x; SELECT y;" : String).data))
      = some "SELECT x;".data := by
    simp +decide [stripComments, stripSqlFences, splitOnFirst, findSelectSpan,
      startsSelectCI, pyLowerL, toLowerChar, takeThroughSemicolon, dropLineRest,
      findBlockEnd]
  exact ⟨h, clean_sql_first_span "SELECT x; SELECT y;" "SELECT x;".data h⟩

/-- **C2** counterexample to the claim as stated: on the two-statement model
output `"SELECT a; SELECT b;"` the post-processing does *not* fail hard — it
returns the first statement `"SELECT a;"`. -/
theorem clean_sql_multi_statement_counterexample :
    _clean_sql_query "SELECT a; SELECT b;" = .ok "SELECT a;" := by
  simp +decide [_clean_sql_query, stripComments, stripSqlFences, splitOnFirst,
    findSelectSpan, startsSelectCI, pyLowerL, toLowerChar, takeThroughSemicolon,
    collapseWs, pySplitWs, takeToken, joinSpace, dropLineRest, findBlockEnd, endsSemi,
    pyStrip, pyIsSpace]

/-! ## Relevance lookup (`EmbeddingManager.find_relevant_tables`)

The sentence-transformer model and the FAISS index are the external
collaborators: `encode` is an abstract embedding function into an arbitrary
vector type `E` (L2-normalisation is folded into it), and a built index is an
abstract search function returning, for a query embedding and a requested
candidate count, a list of (similarity score, int64 label) pairs — FAISS
returns int64 labels which may be `-1`, and Python's `embedding_map[idx]`
then indexes from the end, so labels are kept as `Int` and list indexing
follows Python's semantics (negative wrap-around, `IndexError` out of
range). Scores are modelled as `ℚ`; for an inner-product index over
L2-normalised vectors they are cosine similarities, which is where the
`≤ 1` bound hypothesis of the C4 theorem comes from. -/

/-- The retrieval-relevant state of `EmbeddingManager`: `self.model.encode`,
`self.index` (`None` before `build_index`), `self.embedding_map`. -/
structure EmbeddingState (E : Type) where
  encode : String → E
  index : Option (E → Nat → List (ℚ × Int))
  embedding_map : List String

instance {ε α : Type} [DecidableEq ε] [DecidableEq α] : DecidableEq (Except ε α) :=
  fun a b =>
    match a, b with
    | .ok x, .ok y =>
      if h : x = y then .isTrue (by rw [h]) else .isFalse (fun hh => h (Except.ok.inj hh))
    | .error x, .error y =>
      if h : x = y then .isTrue (by rw [h]) else .isFalse (fun hh => h (Except.error.inj hh))
    | .ok _, .error _ => .isFalse (fun hh => Except.noConfusion hh)
    | .error _, .ok _ => .isFalse (fun hh => Except.noConfusion hh)

/-- Python list indexing `l[i]` with an `int` index: negative indices count
from the end; out of range raises `IndexError`. -/
def pyIndex (l : List String) (i : Int) : Except String String :=
  let j : Int := if i < 0 then (l.length : Int) + i else i
  if h : 0 ≤ j ∧ j < (l.length : Int) then
    .ok (l.get ⟨j.toNat, by omega⟩)
  else
    .error "IndexError: list index out of range"

/-- The dict update
`all_matches[table_name] = max(all_matches.get(table_name, 0.0), score)`:
an existing key is updated in place, a new key is appended (Python dicts
preserve insertion order). -/
def upsertMax : List (String × ℚ) → String → ℚ → List (String × ℚ)
  | [], t, s => [(t, max 0 s)]
  | (t', s') :: rest, t, s =>
    if t' = t then (t', max s' s) :: rest else (t', s') :: upsertMax rest t s

/-- The body of the inner loop of `find_relevant_tables`: keep a (score, idx)
pair only if `score > 0.3`, look its table name up in `embedding_map`, and
merge into `all_matches`. -/
def addMatch (emap : List String) (acc : List (String × ℚ)) (p : ℚ × Int) :
    Except String (List (String × ℚ)) :=
  if p.1 > 3/10 then
    match pyIndex emap p.2 with
    | .ok table_name => .ok (upsertMax acc table_name p.1)
    | .error e => .error e
  else .ok acc

/-- The inner loop over one variant's search results. -/
def processMatches (emap : List String) (ms : List (ℚ × Int))
    (acc : List (String × ℚ)) : Except String (List (String × ℚ)) :=
  ms.foldlM (addMatch emap) acc

/-- One step of the stable descending sort by score
(`sorted(..., key=lambda x: x[1], reverse=True)`). -/
def insertDesc (p : String × ℚ) : List (String × ℚ) → List (String × ℚ)
  | [] => [p]
  | q :: rest => if q.2 > p.2 then q :: insertDesc p rest else p :: q :: rest

/-- Stable descending sort by score. -/
def sortDesc (l : List (String × ℚ)) : List (String × ℚ) := l.foldr insertDesc []

/-- `EmbeddingManager.find_relevant_tables`: raise if the index is not built;
preprocess the query into variants; search each variant's embedding for
`top_k * 2` candidates; keep matches above the 0.3 threshold, aggregating
the maximum score per table; sort descending by score and truncate to
`top_k`. Results are (table_name, similarity_score) pairs. -/
def find_relevant_tables {E : Type} (st : EmbeddingState E) (query : String)
    (top_k : Nat := 2) : Except String (List (String × ℚ)) :=
  match st.index with
  | none => .error "Index not built"
  | some search =>
    let query_variants := _preprocess_query query
    match query_variants.foldlM
        (fun acc variant =>
          processMatches st.embedding_map (search (st.encode variant) (top_k * 2)) acc)
        [] with
    | .ok all_matches => .ok ((sortDesc all_matches).take top_k)
    | .error e => .error e

/-- All (score, label) pairs the two nested loops of `find_relevant_tables`
iterate over, in order: the per-variant search results, concatenated. -/
def searchedPairs {E : Type} (encode : String → E) (search : E → Nat → List (ℚ × Int))
    (query : String) (top_k : Nat) : List (ℚ × Int) :=
  ((_preprocess_query query).map (fun v => search (encode v) (top_k * 2))).flatten

/-- The retained similarity scores for table `t`: scores above the 0.3
threshold whose label resolves to `t` in `embedding_map`. -/
def keptFor (emap : List String) (pairs : List (ℚ × Int)) (t : String) : List ℚ :=
  pairs.filterMap (fun p =>
    if p.1 > 3/10 ∧ pyIndex emap p.2 = .ok t then some p.1 else none)

/-- Association-list lookup in `all_matches` (first binding wins; bindings
are unique by construction). -/
def lookupScore (t : String) : List (String × ℚ) → Option ℚ
  | [] => none
  | (t', s) :: rest => if t' = t then some s else lookupScore t rest

/-- The folded maximum of the retained scores, seeded by an optional current
value — new keys enter as `max 0 score`, existing ones as `max current score`,
exactly as the dict update does. -/
def accMax (o : Option ℚ) (scores : List ℚ) : Option ℚ :=
  scores.foldl (fun acc s =>
    some (match acc with | none => max 0 s | some v => max v s)) o

/-! ### Lemmas about the aggregation loop -/

theorem upsertMax_keys (acc : List (String × ℚ)) (t : String) (s : ℚ) :
    (upsertMax acc t s).map Prod.fst =
      if t ∈ acc.map Prod.fst then acc.map Prod.fst else acc.map Prod.fst ++ [t] := by
  induction acc with
  | nil => simp [upsertMax]
  | cons q rest ih =>
    rw [upsertMax.eq_def]
    by_cases hq : q.1 = t
    · simp [hq]
    · simp only [List.map_cons, List.mem_cons]
      rw [if_neg (by simpa using hq)]
      simp only [List.map_cons, ih]
      by_cases hmem : t ∈ rest.map Prod.fst
      · rw [if_pos hmem, if_pos (Or.inr hmem)]
      · rw [if_neg hmem, if_neg (by rintro (h | h) <;> [exact hq h.symm; exact hmem h])]
        simp

theorem upsertMax_keys_nodup {acc : List (String × ℚ)} (t : String) (s : ℚ)
    (h : (acc.map Prod.fst).Nodup) : ((upsertMax acc t s).map Prod.fst).Nodup := by
  rw [upsertMax_keys]
  by_cases hmem : t ∈ acc.map Prod.fst
  · rw [if_pos hmem]; exact h
  · rw [if_neg hmem]
    rw [List.nodup_append]
    refine ⟨h, List.nodup_singleton t, ?_⟩
    intro a ha hb
    rw [List.mem_singleton] at hb
    subst hb
    exact hmem ha

theorem lookupScore_upsertMax_self (acc : List (String × ℚ)) (t : String) (s : ℚ) :
    lookupScore t (upsertMax acc t s) =
      some (match lookupScore t acc with | none => max 0 s | some v => max v s) := by
  induction acc with
  | nil => simp [upsertMax, lookupScore]
  | cons q rest ih =>
    obtain ⟨ta, sa⟩ := q
    rw [upsertMax]
    by_cases hq : ta = t
    · rw [if_pos hq]
      simp [lookupScore, hq]
    · rw [if_neg hq]
      simp [lookupScore, hq, ih]

theorem lookupScore_upsertMax_other (acc : List (String × ℚ)) {t t' : String} (s : ℚ)
    (h : t' ≠ t) : lookupScore t' (upsertMax acc t s) = lookupScore t' acc := by
  induction acc with
  | nil => simp [upsertMax, lookupScore, Ne.symm h]
  | cons q rest ih =>
    obtain ⟨ta, sa⟩ := q
    rw [upsertMax]
    by_cases hq : ta = t
    · rw [if_pos hq]
      subst hq
      simp [lookupScore, Ne.symm h]
    · rw [if_neg hq]
      simp [lookupScore, ih]

theorem processMatches_ok_lookup (emap : List String) :
    ∀ (pairs : List (ℚ × Int)) (acc acc' : List (String × ℚ)),
      processMatches emap pairs acc = .ok acc' →
      ∀ t, lookupScore t acc' = accMax (lookupScore t acc) (keptFor emap pairs t) := by
  intro pairs
  induction pairs with
  | nil =>
    intro acc acc' h t
    simp only [processMatches, List.foldlM_nil, pure, Except.pure, Except.ok.injEq] at h
    subst h
    simp [keptFor, accMax]
  | cons p rest ih =>
    intro acc acc' h t
    simp only [processMatches, List.foldlM_cons] at h
    by_cases hthr : p.1 > 3/10
    · rw [addMatch, if_pos hthr] at h
      cases hidx : pyIndex emap p.2 with
      | error e => rw [hidx] at h; exact absurd h (by simp [Bind.bind, Except.bind])
      | ok tn =>
        rw [hidx] at h
        have h' : processMatches emap rest (upsertMax acc tn p.1) = .ok acc' := by
          simpa [Bind.bind, Except.bind, processMatches] using h
        have hrec := ih _ _ h' t
        by_cases ht : tn = t
        · subst ht
          rw [hrec, lookupScore_upsertMax_self]
          have hkept : keptFor emap (p :: rest) tn = p.1 :: keptFor emap rest tn := by
            simp [keptFor, hthr, hidx]
          rw [hkept]
          simp [accMax]
        · rw [hrec, lookupScore_upsertMax_other _ _ (fun hh => ht hh.symm)]
          have hkept : keptFor emap (p :: rest) t = keptFor emap rest t := by
            simp only [keptFor, List.filterMap_cons]
            rw [if_neg (by rintro ⟨-, hh⟩; rw [hidx] at hh; exact ht (Except.ok.inj hh))]
          rw [hkept]
    · rw [addMatch, if_neg hthr] at h
      have h' : processMatches emap rest acc = .ok acc' := by
        simpa [Bind.bind, Except.bind, processMatches] using h
      have hrec := ih _ _ h' t
      rw [hrec]
      have hkept : keptFor emap (p :: rest) t = keptFor emap rest t := by
        simp only [keptFor, List.filterMap_cons]
        rw [if_neg (by rintro ⟨hh, -⟩; exact hthr hh)]
      rw [hkept]

theorem processMatches_ok_nodup (emap : List String) :
    ∀ (pairs : List (ℚ × Int)) (acc acc' : List (String × ℚ)),
      processMatches emap pairs acc = .ok acc' →
      (acc.map Prod.fst).Nodup → (acc'.map Prod.fst).Nodup := by
  intro pairs
  induction pairs with
  | nil =>
    intro acc acc' h hnd
    simp only [processMatches, List.foldlM_nil, pure, Except.pure, Except.ok.injEq] at h
    subst h
    exact hnd
  | cons p rest ih =>
    intro acc acc' h hnd
    simp only [processMatches, List.foldlM_cons] at h
    by_cases hthr : p.1 > 3/10
    · rw [addMatch, if_pos hthr] at h
      cases hidx : pyIndex emap p.2 with
      | error e => rw [hidx] at h; exact absurd h (by simp [Bind.bind, Except.bind])
      | ok tn =>
        rw [hidx] at h
        have h' : processMatches emap rest (upsertMax acc tn p.1) = .ok acc' := by
          simpa [Bind.bind, Except.bind, processMatches] using h
        exact ih _ _ h' (upsertMax_keys_nodup tn p.1 hnd)
    · rw [addMatch, if_neg hthr] at h
      have h' : processMatches emap rest acc = .ok acc' := by
        simpa [Bind.bind, Except.bind, processMatches] using h
      exact ih _ _ h' hnd

/-! ### Lemmas about the descending sort and the folded maximum -/

theorem mem_insertDesc {a p : String × ℚ} :
    ∀ {l : List (String × ℚ)}, a ∈ insertDesc p l ↔ a = p ∨ a ∈ l := by
  intro l
  induction l with
  | nil => simp [insertDesc]
  | cons q rest ih =>
    rw [insertDesc]
    by_cases hc : q.2 > p.2
    · rw [if_pos hc]
      simp only [List.mem_cons, ih]
      tauto
    · rw [if_neg hc]
      simp only [List.mem_cons]

theorem insertDesc_perm (p : String × ℚ) :
    ∀ (l : List (String × ℚ)), (insertDesc p l).Perm (p :: l) := by
  intro l
  induction l with
  | nil => simp [insertDesc]
  | cons q rest ih =>
    rw [insertDesc]
    by_cases hc : q.2 > p.2
    · rw [if_pos hc]
      exact (ih.cons q).trans (List.Perm.swap p q rest)
    · rw [if_neg hc]

theorem sortDesc_perm (l : List (String × ℚ)) : (sortDesc l).Perm l := by
  induction l with
  | nil => simp [sortDesc]
  | cons p rest ih =>
    show (insertDesc p (sortDesc rest)).Perm (p :: rest)
    exact (insertDesc_perm p (sortDesc rest)).trans (ih.cons p)

theorem insertDesc_sorted {p : String × ℚ} :
    ∀ {l : List (String × ℚ)}, l.Pairwise (fun a b => b.2 ≤ a.2) →
      (insertDesc p l).Pairwise (fun a b => b.2 ≤ a.2) := by
  intro l
  induction l with
  | nil => intro _; simp [insertDesc]
  | cons q rest ih =>
    intro h
    rw [List.pairwise_cons] at h
    obtain ⟨hq, hrest⟩ := h
    rw [insertDesc]
    by_cases hc : q.2 > p.2
    · rw [if_pos hc]
      rw [List.pairwise_cons]
      refine ⟨?_, ih hrest⟩
      intro b hb
      rcases mem_insertDesc.mp hb with rfl | hb
      · exact le_of_lt hc
      · exact hq b hb
    · rw [if_neg hc]
      push_neg at hc
      rw [List.pairwise_cons]
      refine ⟨?_, List.pairwise_cons.mpr ⟨hq, hrest⟩⟩
      intro b hb
      rcases List.mem_cons.mp hb with rfl | hb
      · exact hc
      · exact (hq b hb).trans hc

theorem sortDesc_sorted (l : List (String × ℚ)) :
    (sortDesc l).Pairwise (fun a b => b.2 ≤ a.2) := by
  induction l with
  | nil => simp [sortDesc]
  | cons p rest ih => exact insertDesc_sorted ih

theorem accMax_some_spec :
    ∀ (scores : List ℚ) (a v : ℚ), accMax (some a) scores = some v →
      (v = a ∨ v ∈ scores) ∧ a ≤ v ∧ ∀ x ∈ scores, x ≤ v := by
  intro scores
  induction scores with
  | nil =>
    intro a v h
    simp only [accMax, List.foldl_nil, Option.some.injEq] at h
    subst h
    simp
  | cons s rest ih =>
    intro a v h
    have h' : accMax (some (max a s)) rest = some v := by
      simpa [accMax, List.foldl_cons] using h
    obtain ⟨hmem, hle, hall⟩ := ih (max a s) v h'
    refine ⟨?_, le_trans (le_max_left a s) hle, ?_⟩
    · rcases hmem with rfl | hmem
      · rcases max_choice a s with heq | heq <;> rw [heq]
        · exact Or.inl rfl
        · exact Or.inr (by simp)
      · exact Or.inr (by simp [hmem])
    · intro x hx
      rcases List.mem_cons.mp hx with rfl | hx
      · exact le_trans (le_max_right a x) hle
      · exact hall x hx

theorem accMax_none_spec {scores : List ℚ} {v : ℚ}
    (hpos : ∀ x ∈ scores, 0 < x) (h : accMax none scores = some v) :
    v ∈ scores ∧ ∀ x ∈ scores, x ≤ v := by
  cases scores with
  | nil => exact absurd h (by simp [accMax])
  | cons s rest =>
    have hs : max 0 s = s := max_eq_right (le_of_lt (hpos s (by simp)))
    have h' : accMax (some s) rest = some v := by
      simpa [accMax, List.foldl_cons, hs] using h
    obtain ⟨hmem, hle, hall⟩ := accMax_some_spec rest s v h'
    refine ⟨?_, ?_⟩
    · rcases hmem with rfl | hmem
      · simp
      · simp [hmem]
    · intro x hx
      rcases List.mem_cons.mp hx with rfl | hx
      · exact hle
      · exact hall x hx

theorem mem_keptFor {emap : List String} {pairs : List (ℚ × Int)} {t : String} {x : ℚ}
    (h : x ∈ keptFor emap pairs t) :
    3/10 < x ∧ ∃ p ∈ pairs, p.1 = x := by
  rw [keptFor, List.mem_filterMap] at h
  obtain ⟨p, hp, hif⟩ := h
  by_cases hc : p.1 > 3/10 ∧ pyIndex emap p.2 = .ok t
  · rw [if_pos hc] at hif
    obtain rfl : p.1 = x := by simpa using hif
    exact ⟨hc.1, p, hp, rfl⟩
  · rw [if_neg hc] at hif
    exact absurd hif (by simp)

theorem lookupScore_of_mem :
    ∀ {l : List (String × ℚ)} {t : String} {s : ℚ},
      (l.map Prod.fst).Nodup → (t, s) ∈ l → lookupScore t l = some s := by
  intro l
  induction l with
  | nil => intro t s _ h; simp at h
  | cons q rest ih =>
    intro t s hnd hmem
    obtain ⟨ta, sa⟩ := q
    rw [List.map_cons, List.nodup_cons] at hnd
    rcases List.mem_cons.mp hmem with heq | hmem'
    · obtain ⟨rfl, rfl⟩ : ta = t ∧ sa = s := by simpa using heq.symm
      simp [lookupScore]
    · rw [lookupScore]
      have hne : ta ≠ t := fun heq =>
        hnd.1 (by rw [heq]; exact List.mem_map.mpr ⟨(t, s), hmem', rfl⟩)
      rw [if_neg hne]
      exact ih hnd.2 hmem'

theorem processMatches_append (emap : List String) :
    ∀ (l₁ l₂ : List (ℚ × Int)) (acc : List (String × ℚ)),
      processMatches emap (l₁ ++ l₂) acc =
        match processMatches emap l₁ acc with
        | .ok a => processMatches emap l₂ a
        | .error e => .error e := by
  intro l₁
  induction l₁ with
  | nil => intro l₂ acc; simp [processMatches, pure, Except.pure]
  | cons p rest ih =>
    intro l₂ acc
    simp only [List.cons_append, processMatches, List.foldlM_cons]
    cases hx : addMatch emap acc p with
    | error e => simp [Bind.bind, Except.bind, hx]
    | ok a =>
      simp only [Bind.bind, Except.bind, hx]
      exact ih l₂ a

theorem variants_fold_eq {E : Type} (emap : List String) (encode : String → E)
    (search : E → Nat → List (ℚ × Int)) (k : Nat) :
    ∀ (vs : List String) (acc : List (String × ℚ)),
      vs.foldlM (fun acc v => processMatches emap (search (encode v) (k * 2)) acc) acc
        = processMatches emap ((vs.map (fun v => search (encode v) (k * 2))).flatten) acc := by
  intro vs
  induction vs with
  | nil => intro acc; simp [processMatches]
  | cons v vs ih =>
    intro acc
    simp only [List.foldlM_cons, List.map_cons, List.flatten_cons]
    rw [processMatches_append]
    cases hx : processMatches emap (search (encode v) (k * 2)) acc with
    | error e => simp [Bind.bind, Except.bind, hx]
    | ok a =>
      simp only [Bind.bind, Except.bind, hx]
      exact ih a

/-! ## Theorems for claims C3, C4 and C10 (relevance lookup) -/

/-- **C3**. For every query string and `top_k`, calling `find_relevant_tables`
before the index has been built (`self.index is None`) raises the
"Index not built" error; in particular it never returns a result list —
empty or otherwise — in that state. -/
theorem find_relevant_tables_not_initialized {E : Type} (st : EmbeddingState E)
    (query : String) (top_k : Nat) (h : st.index = none) :
    find_relevant_tables st query top_k = .error "Index not built" ∧
    ∀ res, find_relevant_tables st query top_k ≠ .ok res := by
  have h1 : find_relevant_tables st query top_k = .error "Index not built" := by
    rw [find_relevant_tables, h]
  exact ⟨h1, fun res hres => by rw [h1] at hres; exact Except.noConfusion hres⟩

/-- **C3** witness: the not-initialized error at a concrete unbuilt state. -/
theorem find_relevant_tables_not_initialized_witness :
    find_relevant_tables (E := Unit) ⟨fun _ => (), none, []⟩ "show employees" 2 =
      .error "Index not built" ∧
    ∀ res, find_relevant_tables (E := Unit) ⟨fun _ => (), none, []⟩ "show employees" 2 ≠
      .ok res :=
  find_relevant_tables_not_initialized ⟨fun _ => (), none, []⟩ "show employees" 2 rfl

/-- **C4**. For every built index, query and `top_k`: an ok-result of
`find_relevant_tables` has at most `top_k` entries; each table name appears
at most once; each entry's score is the maximum similarity retained for that
table across all query variants (it is one of the retained scores and an
upper bound of all of them); only similarities strictly above the 0.3
threshold are retained; every returned score lies in `[0, 1]` (the upper
bound under the hypothesis that the index's similarities are at most 1,
which holds for cosine similarities of L2-normalised embeddings); and the
entries are sorted in descending order of score. -/
theorem find_relevant_tables_spec {E : Type} (st : EmbeddingState E)
    (search : E → Nat → List (ℚ × Int)) (query : String) (top_k : Nat)
    (res : List (String × ℚ))
    (hidx : st.index = some search)
    (hok : find_relevant_tables st query top_k = .ok res)
    (hbound : ∀ p ∈ searchedPairs st.encode search query top_k, p.1 ≤ 1) :
    res.length ≤ top_k ∧
    (res.map Prod.fst).Nodup ∧
    res.Pairwise (fun a b => b.2 ≤ a.2) ∧
    ∀ ts ∈ res,
      3/10 < ts.2 ∧ 0 ≤ ts.2 ∧ ts.2 ≤ 1 ∧
      ts.2 ∈ keptFor st.embedding_map (searchedPairs st.encode search query top_k) ts.1 ∧
      ∀ s' ∈ keptFor st.embedding_map (searchedPairs st.encode search query top_k) ts.1,
        s' ≤ ts.2 := by
  simp only [find_relevant_tables, hidx] at hok
  rw [variants_fold_eq st.embedding_map st.encode search top_k] at hok
  cases hfold : processMatches st.embedding_map
      (searchedPairs st.encode search query top_k) [] with
  | error e =>
    rw [searchedPairs] at hfold
    rw [hfold] at hok
    exact absurd hok (by simp)
  | ok all_matches =>
    rw [searchedPairs] at hfold
    rw [hfold] at hok
    obtain rfl : (sortDesc all_matches).take top_k = res := by simpa using hok
    rw [← searchedPairs] at hfold
    have hnodup : (all_matches.map Prod.fst).Nodup :=
      processMatches_ok_nodup _ _ _ _ hfold (by simp)
    have hlook := processMatches_ok_lookup _ _ _ _ hfold
    simp only [lookupScore, accMax] at hlook
    have hsortnodup : ((sortDesc all_matches).map Prod.fst).Nodup :=
      ((sortDesc_perm all_matches).map Prod.fst).symm.nodup hnodup
    refine ⟨?_, ?_, ?_, ?_⟩
    · simp [List.length_take]
    · exact List.Nodup.sublist ((List.take_sublist _ _).map Prod.fst) hsortnodup
    · exact List.Pairwise.sublist (List.take_sublist _ _) (sortDesc_sorted all_matches)
    · intro ts hts
      have hts2 : ts ∈ all_matches :=
        (sortDesc_perm all_matches).mem_iff.mp
          ((List.take_sublist _ _).subset hts)
      obtain ⟨tname, tscore⟩ := ts
      have hl : lookupScore tname all_matches = some tscore :=
        lookupScore_of_mem hnodup hts2
      have haccmax : accMax none
          (keptFor st.embedding_map (searchedPairs st.encode search query top_k) tname)
            = some tscore := by
        rw [← hl]
        exact (hlook tname).symm
      have hpos : ∀ x ∈ keptFor st.embedding_map
          (searchedPairs st.encode search query top_k) tname, 0 < x := by
        intro x hx
        have := (mem_keptFor hx).1
        linarith
      obtain ⟨hmem, hall⟩ := accMax_none_spec hpos haccmax
      have hthr := (mem_keptFor hmem).1
      obtain ⟨-, p, hp, hpe⟩ := mem_keptFor hmem
      refine ⟨hthr, by linarith, ?_, hmem, hall⟩
      rw [← hpe]
      exact hbound p hp

/-! ### Case-insensitivity of the lookup -/

theorem toLowerChar_idem (c : Char) : toLowerChar (toLowerChar c) = toLowerChar c := by
  unfold toLowerChar
  by_cases h : 65 ≤ c.toNat ∧ c.toNat ≤ 90
  · rw [if_pos h]
    have hv : (c.toNat + 32).isValidChar := Or.inl (by omega)
    have htn : (Char.ofNat (c.toNat + 32)).toNat = c.toNat + 32 := by
      rw [Char.ofNat, dif_pos hv]
      rfl
    rw [if_neg (by omega)]
  · rw [if_neg h, if_neg h]

theorem pyLowerL_idem (l : List Char) : pyLowerL (pyLowerL l) = pyLowerL l := by
  simp only [pyLowerL, List.map_map]
  exact List.map_congr_left (fun c _ => toLowerChar_idem c)

theorem preprocess_query_lower (q : String) :
    _preprocess_query (pyLower q) = _preprocess_query q := by
  simp only [_preprocess_query, pyLower]
  rw [pyLowerL_idem]

/-- **C10**. Relevance lookup is case-insensitive in the query text: for every
state, query string and `top_k`, `find_relevant_tables` returns the same
result on the query and on its lowercased form, because `_preprocess_query`
lowercases the query before variant expansion and embedding (and Python
lowercasing is idempotent). This holds for every state, built or not (both
sides fail identically on an unbuilt index). -/
theorem find_relevant_tables_case_insensitive {E : Type} (st : EmbeddingState E)
    (query : String) (top_k : Nat) :
    find_relevant_tables st query top_k =
      find_relevant_tables st (pyLower query) top_k := by
  simp only [find_relevant_tables, preprocess_query_lower]

/-- A concrete two-table search function for exercising the lookup theorems:
similarity 1 for label 0 and 2/5 for label 1. -/
def wSearch : Unit → Nat → List (ℚ × Int) := fun _ _ => [(1, 0), (2/5, 1)]

/-- A concrete built embedding state over tables `t1` and `t2`. -/
def wSt : EmbeddingState Unit := ⟨fun _ => (), some wSearch, ["t1", "t2"]⟩

/-- **C4** witness: the theorem applied at a concrete built index whose search
returns similarities 1 (table `t1`) and 2/5 (table `t2`); all hypotheses are
discharged by evaluation and the lookup returns `[("t1", 1), ("t2", 2/5)]`. -/
theorem find_relevant_tables_spec_witness :
    wSt.index = some wSearch ∧
    find_relevant_tables wSt "q" 2 = .ok [("t1", 1), ("t2", 2/5)] ∧
    (∀ p ∈ searchedPairs wSt.encode wSearch "q" 2, p.1 ≤ 1) ∧
    [("t1", (1 : ℚ)), ("t2", 2/5)].length ≤ 2 ∧
    (([("t1", (1 : ℚ)), ("t2", 2/5)]).map Prod.fst).Nodup ∧
    ([("t1", (1 : ℚ)), ("t2", 2/5)]).Pairwise (fun a b => b.2 ≤ a.2) := by
  have hq : _preprocess_query "q" = ["q"] := by
    simp +decide [_preprocess_query, findAmounts, findComparisons, pyLowerL, toLowerChar,
      comparisonPhrases, List.find?, List.isPrefixOf]
  have hidx : wSt.index = some wSearch := rfl
  have hok : find_relevant_tables wSt "q" 2 = .ok [("t1", 1), ("t2", 2/5)] := by
    simp only [find_relevant_tables, wSt, wSearch, hq]
    norm_num [processMatches, List.foldlM, addMatch, pyIndex, upsertMax, Bind.bind,
      Except.bind, sortDesc, insertDesc, List.foldr, pure, Except.pure, max_eq_right]
  have hbound : ∀ p ∈ searchedPairs wSt.encode wSearch "q" 2, p.1 ≤ 1 := by
    have hsp : searchedPairs wSt.encode wSearch "q" 2 = [(1, 0), (2/5, 1)] := by
      simp [searchedPairs, hq, wSearch]
    rw [hsp]
    intro p hp
    rcases List.mem_cons.mp hp with rfl | hp
    · norm_num
    · rcases List.mem_cons.mp hp with rfl | hp
      · norm_num
      · simp at hp
  have hmain := find_relevant_tables_spec wSt wSearch "q" 2 _ hidx hok hbound
  exact ⟨hidx, hok, hbound, hmain.1, hmain.2.1, hmain.2.2.1⟩
